import Mathlib

/-!
Verification of the keyword-extractor component
(src/mini-app/components/keyword-extractor.tsx).

The component consists of three pure functions plus a thin shell:

  - extractKeywords(input, n): lowercase the input, split it on the regex
    /[^a-zA-Z0-9]+/, drop empty tokens, count each token that is not a
    stop word in a plain JS object, sort the entries of that object by
    count descending with the stable Array.prototype.sort, keep the token
    strings, and return sorted.slice(0, n).
  - highlight(input, keywords): build the regex
    new RegExp("\\b(" + escaped.join("|") + ")\\b", "gi") where each
    keyword has its regex metacharacters escaped, and return
    input.replace(regex, "**$1**").
  - handleSubmit: if the trimmed input is empty, store "" as the result;
    otherwise store highlight(text, extractKeywords(text, keywordsCount)).

The embedding below models strings as lists of characters (String.data)
and models the relevant JavaScript semantics explicitly:

  - String.prototype.toLowerCase is modelled on ASCII only (jsToLower);
    every character the tokenizer keeps is ASCII, and non-ASCII
    characters are separators both before and after lowercasing.
  - String.prototype.split on the regex /[^a-zA-Z0-9]+/ splits on maximal
    runs of separator characters and yields empty pieces only at the two
    ends (jsSplit); filter(Boolean) then drops empty pieces.
  - Object.entries enumerates array-index keys (canonical decimal
    strings below 4294967295) first in ascending numeric order and the
    remaining keys in insertion order (objectEntries).
  - Array.prototype.sort with the comparator (a, b) => b[1] - a[1] is a
    stable sort by count descending (ES2019); any stable sorting
    algorithm produces the same output, and sortByCountDesc is a stable
    insertion sort.
  - Array.prototype.slice(0, n) with a negative n takes length + n
    (clamped at zero) elements (jsSlice0).
  - The regex built by highlight matches, at a position with a word
    boundary, the first keyword of the alternation that matches
    case-insensitively and is followed by a word boundary; since every
    keyword is escaped, each alternative matches the keyword literally.
    String.prototype.replace with the global flag rewrites the leftmost
    matches one after the other, advancing by one position after an
    empty match.  With an empty keyword array the join yields the
    pattern \b()\b, whose single alternative is the empty string.
    The scan hlScanF implements exactly this; its fuel argument only
    bounds the recursion depth and is always sufficient, since every
    step consumes at least one character of the remaining input.
-/

/-! ## Character classes and ASCII lowercasing -/

/-- Characters matched by [a-z] in the source regexes. -/
def isLowerAlpha (c : Char) : Bool := 97 ≤ c.toNat && c.toNat ≤ 122

/-- Characters matched by [A-Z] in the source regexes. -/
def isUpperAlpha (c : Char) : Bool := 65 ≤ c.toNat && c.toNat ≤ 90

/-- Characters matched by [0-9] in the source regexes. -/
def isDigitCh (c : Char) : Bool := 48 ≤ c.toNat && c.toNat ≤ 57

/-- Characters matched by [a-zA-Z0-9]: the tokenizer alphabet of
extractKeywords (the regex /[^a-zA-Z0-9]+/ separates on everything
else). -/
def isAlnum (c : Char) : Bool := isLowerAlpha c || isUpperAlpha c || isDigitCh c

/-- Lowercase letters and digits: the characters that can occur in a
token after lowercasing. -/
def isLowerAlnum (c : Char) : Bool := isLowerAlpha c || isDigitCh c

/-- Word characters of the JavaScript regex word boundary \b, namely
[A-Za-z0-9_].  Note that this includes the underscore while the
tokenizer alphabet isAlnum does not. -/
def isWordChar (c : Char) : Bool := isAlnum c || c.toNat == 95

/-- String.prototype.toLowerCase restricted to ASCII: maps A-Z to a-z
and keeps every other character.  All characters relevant to the
tokenizer and to case-insensitive keyword matching are ASCII. -/
def jsToLower (c : Char) : Char :=
  if isUpperAlpha c then Char.ofNat (c.toNat + 32) else c

/-- Lowercase a whole string (as a character list). -/
def lowerStr (l : List Char) : List Char := l.map jsToLower

/-! ## Tokenizer: input.toLowerCase().split(/[^a-zA-Z0-9]+/).filter(Boolean) -/

/-- String.prototype.split on the regex /[^a-zA-Z0-9]+/: the string is
cut at every maximal run of separator characters; an empty piece
appears before a leading run, after a trailing run, and when the whole
string is empty or consists of separators only.  Written with a
one-character lookahead so that the recursion is structural. -/
def jsSplit : List Char → List (List Char)
  | [] => [[]]
  | [c] => if isAlnum c then [[c]] else [[], []]
  | c :: d :: cs =>
    if isAlnum c then
      match jsSplit (d :: cs) with
      | [] => [[c]]
      | t :: ts => (c :: t) :: ts
    else if isAlnum d then [] :: jsSplit (d :: cs)
    else jsSplit (d :: cs)

/-- The token list of extractKeywords: lowercase, split, drop empty
pieces (filter(Boolean)). -/
def jsWordsL (s : List Char) : List (List Char) :=
  (jsSplit (lowerStr s)).filter (fun t => !t.isEmpty)

/-- Modelled from the spec: the Tokenizer splits the lowercased input
into tokens using any maximal run of characters that are not ASCII
letters or digits as a separator, and empty tokens are discarded.  This
definition follows the words of the spec directly (collect each maximal
run of alphanumeric characters); the theorem for C5 proves it equal to
the splitter of the source. -/
def specTokens (l : List Char) : List (List Char) :=
  match l with
  | [] => []
  | c :: cs =>
    if isAlnum c then (c :: cs.takeWhile isAlnum) :: specTokens (cs.dropWhile isAlnum)
    else specTokens cs
termination_by l.length
decreasing_by
· simpa [Nat.lt_succ_iff] using (@List.dropWhile_sublist Char cs isAlnum).length_le
· simp

/-! ## Counter: the stop-word set and the frequency object -/

/-- The stop-word list of the component, verbatim. -/
def stopWords : List String :=
  ["the", "and", "a", "to", "of", "in", "that", "it", "is", "was",
   "for", "on", "with", "as", "by", "at", "from", "or", "an", "be",
   "this", "which", "but", "not", "are", "have", "has", "had"]

/-- stopWords.has(w) on a token. -/
def isStopWord (w : List Char) : Bool := stopWords.any (fun s => s.data == w)

/-- freq[w] = (freq[w] || 0) + 1 on a plain JS object, modelled as an
association list in property insertion order: an existing key keeps its
position, a new key is appended at the end. -/
def bump : List (List Char × Nat) → List Char → List (List Char × Nat)
  | [], w => [(w, 1)]
  | p :: m, w => if p.1 = w then (p.1, p.2 + 1) :: m else p :: bump m w

/-- The frequency object after the counting loop of extractKeywords:
every token that is not a stop word is counted. -/
def buildFreq (ws : List (List Char)) : List (List Char × Nat) :=
  ws.foldl (fun m w => if isStopWord w then m else bump m w) []

/-- Reading freq[w] from the modelled object. -/
def lookupCount : List (List Char × Nat) → List Char → Option Nat
  | [], _ => none
  | p :: m, w => if p.1 = w then some p.2 else lookupCount m w

/-! ## Selector: Object.entries(freq).sort((a, b) => b[1] - a[1]).map(([word]) => word).slice(0, n) -/

/-- Numeric value of a decimal digit string. -/
def natOfDigits (l : List Char) : Nat := l.foldl (fun n c => n * 10 + (c.toNat - 48)) 0

/-- Whether a property key is an array index in the sense of the
ECMAScript property-enumeration order: a canonical decimal string (no
leading zero except for 0 itself) whose value is below 2^32 - 1. -/
def isArrayIndexKey (w : List Char) : Bool :=
  !w.isEmpty && w.all isDigitCh && (w == ['0'] || w.head? != some '0') &&
    decide (natOfDigits w < 4294967295)

/-- Stable insertion into a sorted list: the new element goes before
the first element x with le e x, hence before equal elements, which
makes the fold below a stable sort when elements are inserted from the
right end of the list to the front. -/
def insBy (le : α → α → Bool) (e : α) : List α → List α
  | [] => [e]
  | x :: xs => if le e x then e :: x :: xs else x :: insBy le e xs

/-- Stable insertion sort with respect to the total boolean preorder
le.  A stable sort is uniquely determined by the preorder, so this
models the stable Array.prototype.sort of ES2019 faithfully. -/
def sortBy (le : α → α → Bool) (l : List α) : List α := l.foldr (insBy le) []

/-- Object.entries on the frequency object: array-index keys first in
ascending numeric order, then the remaining keys in insertion order. -/
def objectEntries (m : List (List Char × Nat)) : List (List Char × Nat) :=
  sortBy (fun a b => decide (natOfDigits a.1 ≤ natOfDigits b.1))
      (m.filter (fun p => isArrayIndexKey p.1)) ++
    m.filter (fun p => !isArrayIndexKey p.1)

/-- The comparator (a, b) => b[1] - a[1]: sort by count descending. -/
def sortByCountDesc (l : List (List Char × Nat)) : List (List Char × Nat) :=
  sortBy (fun a b => decide (b.2 ≤ a.2)) l

/-- Array.prototype.slice(0, n) for an integer n: a nonnegative end
index takes min n length elements, a negative end index takes
length + n elements, clamped at zero. -/
def jsSlice0 (l : List α) (n : Int) : List α :=
  l.take (if n < 0 then ((l.length : Int) + n).toNat else n.toNat)

/-- The Selector: sorting, projecting to the words and slicing, applied
to a frequency object. -/
def selectTop (freq : List (List Char × Nat)) (n : Int) : List (List Char) :=
  jsSlice0 ((sortByCountDesc (objectEntries freq)).map Prod.fst) n

/-- extractKeywords on character lists. -/
def extractKeywordsL (s : List Char) (n : Int) : List (List Char) :=
  selectTop (buildFreq (jsWordsL s)) n

/-- extractKeywords(input, n) of the source. -/
def extractKeywords (input : String) (n : Int) : List String :=
  (extractKeywordsL input.data n).map (fun w => (⟨w⟩ : String))

/-! ## Highlighter: input.replace(new RegExp("\\b(" + escaped.join("|") + ")\\b", "gi"), "**$1**") -/

/-- Wordness of an optional character; the ends of the string count as
non-word for the word boundary \b. -/
def oWord : Option Char → Bool
  | some c => isWordChar c
  | none => false

/-- The word boundary \b between two adjacent positions: exactly one of
the two neighbouring characters is a word character. -/
def wordB (p n : Option Char) : Bool := oWord p != oWord n

/-- Whether the alternative for keyword k matches at the current
position: k characters of the remaining input compare equal to k under
case folding (the i flag), and the position after the match is a word
boundary (the trailing \b).  Since every keyword is escaped with
k.replace(/[.*+?^$\x7b\x7d()|[\]\\]/g, "\\$&"), the alternative matches
the keyword literally.  For the empty alternative the character before
the match is the character before the current position. -/
def altMatch (prev : Option Char) (s k : List Char) : Bool :=
  decide (k.length ≤ s.length) &&
  decide (lowerStr (s.take k.length) = lowerStr k) &&
  wordB (if k.length == 0 then prev else (s.take k.length).getLast?)
    ((s.drop k.length).head?)

/-- The alternation (k1|k2|...) tries the alternatives from left to
right and commits to the first one that lets the rest of the pattern
(the trailing \b) succeed. -/
def findAlt (alts : List (List Char)) (prev : Option Char) (s : List Char) :
    Option (List Char) :=
  alts.find? (altMatch prev s)

/-- One pass of input.replace(regex, "**$1**") with the global flag:
at each position, if the pattern \b(alternation)\b matches, emit the
replacement (two stars, the matched text with its original casing, two
stars) and continue after the match; after an empty match, or when
nothing matches, copy one character and advance.  The fuel only bounds
the recursion depth; every step consumes at least one character, so
fuel = length + 1 is always sufficient (hlScanF_fuel below). -/
def hlScanF (alts : List (List Char)) : Nat → Option Char → List Char → List Char
  | 0, _, _ => []
  | _ + 1, prev, [] =>
    if wordB prev none && (findAlt alts prev []).isSome then ['*', '*', '*', '*'] else []
  | fuel + 1, prev, c :: cs =>
    if wordB prev (some c) then
      match findAlt alts prev (c :: cs) with
      | some k =>
        if k.length == 0 then
          '*' :: '*' :: '*' :: '*' :: c :: hlScanF alts fuel (some c) cs
        else
          '*' :: '*' :: (((c :: cs).take k.length) ++ '*' :: '*' ::
            hlScanF alts fuel (((c :: cs).take k.length).getLast?) ((c :: cs).drop k.length))
      | none => c :: hlScanF alts fuel (some c) cs
    else c :: hlScanF alts fuel (some c) cs

/-- highlight(input, keywords) of the source.  An empty keyword array
yields escaped.join("|") = "", i.e. the pattern \b()\b with a single
empty alternative; a non-empty array yields one alternative per
keyword. -/
def highlight (input : String) (keywords : List String) : String :=
  ⟨hlScanF (if keywords.isEmpty then [[]] else keywords.map String.data)
    (input.data.length + 1) none input.data⟩

/-- Modelled from the spec: the Highlighter wraps every whole-word,
case-insensitive occurrence of a keyword in two pairs of stars,
preserves the original casing of the matched text and leaves everything
else unchanged.  For keywords drawn from the tokenizer alphabet a
whole-word occurrence is exactly a maximal run of word characters that
equals a keyword under case folding, so this definition walks the
maximal word-character runs of the text and wraps the runs whose
lowercase form is a (lowercased) keyword.  The theorem for C7 proves it
equal to the regex-based highlight of the source on such keyword
lists. -/
def specHL (lowKws : List (List Char)) (l : List Char) : List Char :=
  match l with
  | [] => []
  | c :: cs =>
    if isWordChar c then
      if lowerStr (c :: cs.takeWhile isWordChar) ∈ lowKws then
        '*' :: '*' :: ((c :: cs.takeWhile isWordChar) ++ '*' :: '*' ::
          specHL lowKws (cs.dropWhile isWordChar))
      else (c :: cs.takeWhile isWordChar) ++ specHL lowKws (cs.dropWhile isWordChar)
    else c :: specHL lowKws cs
termination_by l.length
decreasing_by
· simpa [Nat.lt_succ_iff] using (@List.dropWhile_sublist Char cs isWordChar).length_le
· simpa [Nat.lt_succ_iff] using (@List.dropWhile_sublist Char cs isWordChar).length_le
· simp

/-- The spec-side Highlighter on strings. -/
def specHighlight (input : String) (keywords : List String) : String :=
  ⟨specHL (keywords.map (fun k => lowerStr k.data)) input.data⟩

/-- The character at index i of a string, if any. -/
def charAt (s : List Char) (i : Nat) : Option Char := (s.drop i).head?

/-- A word boundary \b at position i of the whole string: between the
characters at i - 1 and i (the ends count as non-word). -/
def boundaryAt (s : List Char) (i : Nat) : Bool :=
  wordB (if i = 0 then none else charAt s (i - 1)) (charAt s i)

/-- A whole-word, case-insensitive occurrence of the keyword k at
position i of s: the k.length characters from i compare equal to k
under case folding and both ends of the occurrence are word
boundaries. -/
def wholeWordOccAt (s k : List Char) (i : Nat) : Bool :=
  decide (i + k.length ≤ s.length) &&
  decide (lowerStr ((s.drop i).take k.length) = lowerStr k) &&
  boundaryAt s i && boundaryAt s (i + k.length)

/-- Whether k has a whole-word, case-insensitive occurrence anywhere
in s. -/
def hasWholeWordOcc (s k : List Char) : Bool :=
  (List.range (s.length + 1)).any (wholeWordOccAt s k)

/-! ## Interactive shell: handleSubmit -/

/-- The ECMAScript whitespace and line-terminator characters trimmed by
String.prototype.trim: TAB, LF, VT, FF, CR, SP, NBSP, OGHAM SPACE MARK,
the Zs spaces U+2000 to U+200A, LS, PS, NNBSP, MMSP, IDEOGRAPHIC SPACE
and ZWNBSP. -/
def jsIsWhitespace (c : Char) : Bool :=
  c.toNat == 9 || c.toNat == 10 || c.toNat == 11 || c.toNat == 12 || c.toNat == 13 ||
  c.toNat == 32 || c.toNat == 160 || c.toNat == 5760 ||
  (8192 ≤ c.toNat && c.toNat ≤ 8202) || c.toNat == 8232 || c.toNat == 8233 ||
  c.toNat == 8239 || c.toNat == 8287 || c.toNat == 12288 || c.toNat == 65279

/-- String.prototype.trim: drop whitespace from both ends. -/
def jsTrim (s : List Char) : List Char :=
  ((s.dropWhile jsIsWhitespace).reverse.dropWhile jsIsWhitespace).reverse

/-- handleSubmit of the source, as a function from the two relevant
pieces of state (the input text and the requested keyword count) to the
new value of the highlighted-text state: if the trimmed text is empty
the result is cleared to "", otherwise the pipeline
extractKeywords then highlight runs on the text. -/
def handleSubmit (text : String) (keywordsCount : Int) : String :=
  if (jsTrim text.data).isEmpty then ""
  else highlight text (extractKeywords text keywordsCount)

/-! ## Auxiliary observers used to state the claims -/

/-- Position of the first occurrence of x in l (l.length if absent):
used to state that one keyword precedes another in the keyword list. -/
def posOf [DecidableEq α] : List α → α → Nat
  | [], _ => 0
  | y :: l, x => if y = x then 0 else posOf l x + 1

/-- Whether pat occurs as a contiguous segment of s: used to state that
a keyword occurrence is wrapped in stars somewhere in the output. -/
def containsSeg (pat s : List Char) : Bool :=
  (List.range (s.length + 1)).any (fun i => (s.drop i).take pat.length == pat)

/-! ## Helper lemmas about characters and lowercasing -/

theorem charOfNat_toNat (n : Nat) (h : n < 55296) : (Char.ofNat n).toNat = n := by
  have hv : Nat.isValidChar n := Or.inl h
  simp [Char.ofNat, hv, Char.toNat, Char.ofNatAux, UInt32.toNat, BitVec.toNat_ofNatLt]

theorem jsToLower_toNat (c : Char) :
    (jsToLower c).toNat = if 65 ≤ c.toNat ∧ c.toNat ≤ 90 then c.toNat + 32 else c.toNat := by
  by_cases h : 65 ≤ c.toNat ∧ c.toNat ≤ 90
  · have hb : isUpperAlpha c = true := by
      simp only [isUpperAlpha, Bool.and_eq_true, decide_eq_true_eq]; omega
    rw [if_pos h, jsToLower, if_pos hb]
    exact charOfNat_toNat _ (by omega)
  · have hb : ¬ isUpperAlpha c = true := by
      simp only [isUpperAlpha, Bool.and_eq_true, decide_eq_true_eq]; omega
    rw [if_neg h, jsToLower, if_neg hb]

theorem isWordChar_jsToLower (c : Char) : isWordChar (jsToLower c) = isWordChar c := by
  have h := jsToLower_toNat c
  rw [Bool.eq_iff_iff]
  simp only [isWordChar, isAlnum, isLowerAlpha, isUpperAlpha, isDigitCh, Bool.or_eq_true,
    Bool.and_eq_true, decide_eq_true_eq, beq_iff_eq]
  split at h <;> omega

theorem isAlnum_jsToLower (c : Char) : isAlnum (jsToLower c) = isAlnum c := by
  have h := jsToLower_toNat c
  rw [Bool.eq_iff_iff]
  simp only [isAlnum, isLowerAlpha, isUpperAlpha, isDigitCh, Bool.or_eq_true,
    Bool.and_eq_true, decide_eq_true_eq]
  split at h <;> omega

theorem isLowerAlnum_jsToLower (c : Char) : isLowerAlnum (jsToLower c) = isAlnum c := by
  have h := jsToLower_toNat c
  rw [Bool.eq_iff_iff]
  simp only [isLowerAlnum, isAlnum, isLowerAlpha, isUpperAlpha, isDigitCh, Bool.or_eq_true,
    Bool.and_eq_true, decide_eq_true_eq]
  split at h <;> omega

theorem all_isWordChar_lowerStr (l : List Char) :
    (lowerStr l).all isWordChar = l.all isWordChar := by
  induction l with
  | nil => rfl
  | cons c cs ih =>
    simp only [lowerStr, List.map_cons, List.all_cons] at ih ⊢
    rw [isWordChar_jsToLower, ih]

theorem all_isAlnum_lowerStr (l : List Char) :
    (lowerStr l).all isAlnum = l.all isAlnum := by
  induction l with
  | nil => rfl
  | cons c cs ih =>
    simp only [lowerStr, List.map_cons, List.all_cons] at ih ⊢
    rw [isAlnum_jsToLower, ih]

/-! ## Tokenizer lemmas: the split of the source yields the maximal runs -/

theorem specTokens_nil : specTokens [] = [] := by rw [specTokens]

theorem specTokens_cons_pos {c : Char} {cs : List Char} (hc : isAlnum c = true) :
    specTokens (c :: cs) =
      (c :: cs.takeWhile isAlnum) :: specTokens (cs.dropWhile isAlnum) := by
  rw [specTokens, if_pos hc]

theorem specTokens_cons_neg {c : Char} {cs : List Char} (hc : ¬ isAlnum c = true) :
    specTokens (c :: cs) = specTokens cs := by
  rw [specTokens, if_neg hc]

theorem filter_jsSplit_of_shape {l : List Char} {ts : List (List Char)}
    (h1 : jsSplit l = l.takeWhile isAlnum :: ts)
    (h2 : ts.filter (fun t => !t.isEmpty) = specTokens (l.dropWhile isAlnum)) :
    (jsSplit l).filter (fun t => !t.isEmpty) = specTokens l := by
  rw [h1, List.filter_cons]
  cases l with
  | nil => simpa [specTokens_nil] using h2
  | cons c cs =>
    by_cases hc : isAlnum c = true
    · rw [List.dropWhile_cons, if_pos hc] at h2
      rw [List.takeWhile_cons, if_pos hc]
      simp only [List.isEmpty_cons, Bool.not_false, if_pos]
      rw [specTokens_cons_pos hc, h2]
    · rw [List.dropWhile_cons, if_neg hc] at h2
      rw [List.takeWhile_cons, if_neg hc]
      simp only [List.isEmpty_nil, Bool.not_true, Bool.false_eq_true, if_false]
      rw [h2, specTokens_cons_neg hc]

theorem jsSplit_shape (l : List Char) :
    ∃ ts, jsSplit l = l.takeWhile isAlnum :: ts ∧
      ts.filter (fun t => !t.isEmpty) = specTokens (l.dropWhile isAlnum) := by
  induction l using jsSplit.induct with
  | case1 => exact ⟨[], rfl, by simpa using specTokens_nil.symm⟩
  | case2 c hc =>
    refine ⟨[], ?_, ?_⟩
    · show (if isAlnum c then [[c]] else [[], []]) = List.takeWhile isAlnum [c] :: []
      rw [if_pos hc, List.takeWhile_cons, if_pos hc]
      rfl
    · rw [List.dropWhile_cons, if_pos hc]
      simpa using specTokens_nil.symm
  | case3 c hc =>
    refine ⟨[[]], ?_, ?_⟩
    · show (if isAlnum c then [[c]] else [[], []]) = List.takeWhile isAlnum [c] :: [[]]
      rw [if_neg hc, List.takeWhile_cons, if_neg hc]
    · rw [List.dropWhile_cons, if_neg hc]
      simp [specTokens_cons_neg hc, specTokens_nil]
  | case4 c d cs hc hnil ih =>
    obtain ⟨ts1, h1, h2⟩ := ih
    rw [hnil] at h1
    exact absurd h1 (by simp)
  | case5 c d cs hc t ts0 hsplit ih =>
    obtain ⟨ts1, h1, h2⟩ := ih
    rw [hsplit] at h1
    injection h1 with h1a h1b
    refine ⟨ts1, ?_, ?_⟩
    · simp only [jsSplit]
      rw [if_pos hc, hsplit]
      show (c :: t) :: ts0 = List.takeWhile isAlnum (c :: d :: cs) :: ts1
      rw [List.takeWhile_cons, if_pos hc, ← h1a, h1b]
    · rw [List.dropWhile_cons, if_pos hc]
      exact h2
  | case6 c d cs hc hd ih =>
    obtain ⟨ts1, h1, h2⟩ := ih
    refine ⟨jsSplit (d :: cs), ?_, ?_⟩
    · simp only [jsSplit]
      rw [if_neg hc, if_pos hd, List.takeWhile_cons, if_neg hc]
    · rw [List.dropWhile_cons, if_neg hc, specTokens_cons_neg hc]
      exact filter_jsSplit_of_shape h1 h2
  | case7 c d cs hc hd ih =>
    obtain ⟨ts1, h1, h2⟩ := ih
    refine ⟨ts1, ?_, ?_⟩
    · simp only [jsSplit]
      rw [if_neg hc, if_neg hd, h1, List.takeWhile_cons isAlnum c (d :: cs), if_neg hc,
        List.takeWhile_cons isAlnum d cs, if_neg hd]
    · rw [List.dropWhile_cons, if_neg hc, specTokens_cons_neg hc]
      rw [List.dropWhile_cons, if_neg hd] at h2
      exact h2

theorem filter_jsSplit (l : List Char) :
    (jsSplit l).filter (fun t => !t.isEmpty) = specTokens l := by
  obtain ⟨ts, h1, h2⟩ := jsSplit_shape l
  exact filter_jsSplit_of_shape h1 h2

theorem jsWordsL_eq_specTokens (s : List Char) :
    jsWordsL s = specTokens (lowerStr s) :=
  filter_jsSplit (lowerStr s)

/-! ## Token properties -/

theorem specTokens_mem (l : List Char) :
    ∀ t ∈ specTokens l, t ≠ [] ∧ t.all isAlnum = true ∧ ∀ ch ∈ t, ch ∈ l := by
  induction l using specTokens.induct with
  | case1 =>
    intro t ht
    rw [specTokens_nil] at ht
    cases ht
  | case2 c cs hc ih =>
    intro t ht
    rw [specTokens_cons_pos hc, List.mem_cons] at ht
    rcases ht with ht | ht
    · subst ht
      refine ⟨by simp, ?_, ?_⟩
      · simp only [List.all_cons, Bool.and_eq_true, List.all_eq_true]
        exact ⟨hc, fun x hx => List.mem_takeWhile_imp hx⟩
      · intro ch hch
        rw [List.mem_cons] at hch
        rcases hch with hch | hch
        · simp [hch]
        · exact List.mem_cons_of_mem c ((List.takeWhile_sublist isAlnum).subset hch)
    · obtain ⟨h1, h2, h3⟩ := ih t ht
      exact ⟨h1, h2, fun ch hch =>
        List.mem_cons_of_mem c ((List.dropWhile_sublist isAlnum).subset (h3 ch hch))⟩
  | case3 c cs hc ih =>
    intro t ht
    rw [specTokens_cons_neg hc] at ht
    obtain ⟨h1, h2, h3⟩ := ih t ht
    exact ⟨h1, h2, fun ch hch => List.mem_cons_of_mem c (h3 ch hch)⟩

theorem jsWordsL_token_props {s t : List Char} (h : t ∈ jsWordsL s) :
    t ≠ [] ∧ t.all isLowerAlnum = true := by
  rw [jsWordsL_eq_specTokens] at h
  obtain ⟨h1, h2, h3⟩ := specTokens_mem _ t h
  refine ⟨h1, ?_⟩
  rw [List.all_eq_true]
  intro ch hch
  have ha : isAlnum ch = true := (List.all_eq_true.mp h2) ch hch
  have hm : ch ∈ lowerStr s := h3 ch hch
  obtain ⟨d, _, hd⟩ := List.mem_map.mp hm
  subst hd
  rw [isLowerAlnum_jsToLower]
  rw [isAlnum_jsToLower] at ha
  exact ha

/-! ## Frequency object lemmas -/

theorem lookupCount_bump_self (m : List (List Char × Nat)) (w : List Char) :
    lookupCount (bump m w) w = some ((lookupCount m w).getD 0 + 1) := by
  induction m with
  | nil => simp [bump, lookupCount]
  | cons p m ih =>
    by_cases h : p.1 = w
    · simp [bump, h, lookupCount]
    · simp [bump, h, lookupCount, ih]

theorem lookupCount_bump_other {m : List (List Char × Nat)} {w v : List Char}
    (h : ¬ v = w) : lookupCount (bump m w) v = lookupCount m v := by
  have hw : ¬ w = v := fun hh => h hh.symm
  induction m with
  | nil => simp [bump, lookupCount, hw]
  | cons p m ih =>
    by_cases hp : p.1 = w
    · simp [bump, hp, lookupCount, hw]
    · simp [bump, hp, lookupCount, ih]

theorem bump_keys_mem {m : List (List Char × Nat)} {w : List Char}
    (h : w ∈ m.map Prod.fst) : (bump m w).map Prod.fst = m.map Prod.fst := by
  induction m with
  | nil => cases h
  | cons p m ih =>
    by_cases hp : p.1 = w
    · simp [bump, hp]
    · rw [List.map_cons, List.mem_cons] at h
      rcases h with h | h
      · exact absurd h.symm hp
      · simp [bump, hp, ih h]

theorem bump_keys_new {m : List (List Char × Nat)} {w : List Char}
    (h : ¬ w ∈ m.map Prod.fst) : (bump m w).map Prod.fst = m.map Prod.fst ++ [w] := by
  induction m with
  | nil => simp [bump]
  | cons p m ih =>
    rw [List.map_cons, List.mem_cons] at h
    push_neg at h
    have hp : ¬ p.1 = w := fun hh => h.1 hh.symm
    simp [bump, hp, ih h.2]

theorem bump_keys_nodup {m : List (List Char × Nat)} {w : List Char}
    (h : (m.map Prod.fst).Nodup) : ((bump m w).map Prod.fst).Nodup := by
  by_cases hm : w ∈ m.map Prod.fst
  · rw [bump_keys_mem hm]; exact h
  · rw [bump_keys_new hm]
    simp only [List.nodup_append, List.nodup_cons, List.not_mem_nil, not_false_eq_true,
      List.nodup_nil, and_true, true_and]
    exact ⟨h, fun x hx hx1 => by simp only [List.mem_singleton] at hx1; exact hm (hx1 ▸ hx)⟩

theorem lookupCount_eq_none {m : List (List Char × Nat)} {w : List Char} :
    lookupCount m w = none ↔ ¬ w ∈ m.map Prod.fst := by
  induction m with
  | nil => simp [lookupCount]
  | cons p m ih =>
    by_cases hp : p.1 = w
    · simp [lookupCount, hp]
    · have hw : w ≠ p.1 := fun hh => hp hh.symm
      rw [lookupCount, if_neg hp, ih, List.map_cons, List.mem_cons]
      simp [hw]

theorem lookupCount_of_mem {m : List (List Char × Nat)}
    (hnd : (m.map Prod.fst).Nodup) {p : List Char × Nat} (hp : p ∈ m) :
    lookupCount m p.1 = some p.2 := by
  induction m with
  | nil => cases hp
  | cons q m ih =>
    rw [List.map_cons, List.nodup_cons] at hnd
    rw [List.mem_cons] at hp
    rcases hp with hp | hp
    · subst hp
      simp [lookupCount]
    · have hq : ¬ q.1 = p.1 := by
        intro hh
        exact hnd.1 (hh ▸ List.mem_map.mpr ⟨p, hp, rfl⟩)
      simp [lookupCount, hq, ih hnd.2 hp]


theorem lookupCount_countLoop_skip (ws : List (List Char)) :
    ∀ (m : List (List Char × Nat)) (w : List Char),
      isStopWord w = true ∨ ¬ w ∈ ws →
      lookupCount (ws.foldl (fun m w => if isStopWord w then m else bump m w) m) w =
        lookupCount m w := by
  induction ws with
  | nil => intro m w _; rfl
  | cons u ws ih =>
    intro m w hw
    have hw1 : isStopWord w = true ∨ ¬ w ∈ ws := by
      rcases hw with hw | hw
      · exact Or.inl hw
      · exact Or.inr (fun hh => hw (List.mem_cons_of_mem u hh))
    rw [List.foldl_cons, ih _ w hw1]
    by_cases huw : u = w
    · subst huw
      have hstu : isStopWord u = true := by
        rcases hw with hw | hw
        · exact hw
        · exact absurd (List.mem_cons_self u ws) hw
      rw [if_pos hstu]
    · by_cases hu : isStopWord u = true
      · rw [if_pos hu]
      · rw [if_neg hu]
        exact lookupCount_bump_other (fun hh => huw hh.symm)

theorem lookupCount_countLoop_mem (ws : List (List Char)) :
    ∀ (m : List (List Char × Nat)) (w : List Char),
      isStopWord w = false → w ∈ ws →
      lookupCount (ws.foldl (fun m w => if isStopWord w then m else bump m w) m) w =
        some ((lookupCount m w).getD 0 + ws.count w) := by
  induction ws with
  | nil => intro m w _ hmem; cases hmem
  | cons u ws ih =>
    intro m w hst hmem
    rw [List.foldl_cons]
    by_cases hws : w ∈ ws
    · rw [ih _ w hst hws]
      by_cases huw : u = w
      · subst huw
        rw [if_neg (by rw [hst]; exact Bool.false_ne_true), lookupCount_bump_self]
        have hcnt : (u :: ws).count u = ws.count u + 1 := by simp [List.count_cons]
        rw [hcnt]
        simp only [Option.getD_some]
        congr 1
        omega
      · have hcnt : (u :: ws).count w = ws.count w := by
          simp [List.count_cons, fun hh : u = w => huw hh]
        rw [hcnt]
        have hlk : lookupCount (if isStopWord u = true then m else bump m u) w =
            lookupCount m w := by
          by_cases hu : isStopWord u = true
          · rw [if_pos hu]
          · rw [if_neg hu]
            exact lookupCount_bump_other (fun hh => huw hh.symm)
        rw [hlk]
    · have huw : u = w := by
        rw [List.mem_cons] at hmem
        rcases hmem with hmem | hmem
        · exact hmem.symm
        · exact absurd hmem hws
      subst huw
      rw [lookupCount_countLoop_skip ws _ u (Or.inr hws)]
      rw [if_neg (by rw [hst]; exact Bool.false_ne_true), lookupCount_bump_self]
      have hcnt : (u :: ws).count u = ws.count u + 1 := by simp [List.count_cons]
      rw [hcnt, List.count_eq_zero.mpr hws]

theorem lookupCount_buildFreq (ws : List (List Char)) (w : List Char) :
    lookupCount (buildFreq ws) w =
      if isStopWord w = false ∧ w ∈ ws then some (ws.count w) else none := by
  by_cases h : isStopWord w = false ∧ w ∈ ws
  · rw [if_pos h, buildFreq, lookupCount_countLoop_mem ws [] w h.1 h.2]
    simp [lookupCount]
  · rw [if_neg h, buildFreq, lookupCount_countLoop_skip ws [] w ?_]
    · rfl
    · rcases Bool.eq_false_or_eq_true (isStopWord w) with hb | hb
      · exact Or.inl hb
      · exact Or.inr (fun hm => h ⟨hb, hm⟩)

theorem countLoop_keys_nodup (ws : List (List Char)) :
    ∀ m : List (List Char × Nat), (m.map Prod.fst).Nodup →
      ((ws.foldl (fun m w => if isStopWord w then m else bump m w) m).map Prod.fst).Nodup := by
  induction ws with
  | nil => intro m hm; exact hm
  | cons u ws ih =>
    intro m hm
    rw [List.foldl_cons]
    refine ih _ ?_
    by_cases hu : isStopWord u = true
    · rw [if_pos hu]; exact hm
    · rw [if_neg hu]; exact bump_keys_nodup hm

theorem buildFreq_keys_nodup (ws : List (List Char)) :
    ((buildFreq ws).map Prod.fst).Nodup :=
  countLoop_keys_nodup ws [] List.nodup_nil

theorem buildFreq_mem (ws : List (List Char)) {p : List Char × Nat}
    (hp : p ∈ buildFreq ws) :
    p.2 = ws.count p.1 ∧ isStopWord p.1 = false ∧ p.1 ∈ ws := by
  have hlk := lookupCount_of_mem (buildFreq_keys_nodup ws) hp
  rw [lookupCount_buildFreq] at hlk
  by_cases h : isStopWord p.1 = false ∧ p.1 ∈ ws
  · rw [if_pos h] at hlk
    exact ⟨(Option.some.injEq _ _ ▸ hlk).symm, h.1, h.2⟩
  · rw [if_neg h] at hlk
    cases hlk

/-! ## Stable insertion sort lemmas -/

theorem insBy_perm (le : α → α → Bool) (e : α) (l : List α) :
    (insBy le e l).Perm (e :: l) := by
  induction l with
  | nil => exact List.Perm.refl _
  | cons x xs ih =>
    by_cases h : le e x = true
    · rw [insBy, if_pos h]
    · rw [insBy, if_neg h]
      exact (ih.cons x).trans (List.Perm.swap e x xs)

theorem sortBy_perm (le : α → α → Bool) (l : List α) : (sortBy le l).Perm l := by
  induction l with
  | nil => exact List.Perm.refl _
  | cons x xs ih =>
    rw [sortBy, List.foldr_cons]
    exact ((insBy_perm le x _).trans (ih.cons x))

theorem mem_insBy {le : α → α → Bool} {e y : α} {l : List α} :
    y ∈ insBy le e l ↔ y = e ∨ y ∈ l := by
  rw [(insBy_perm le e l).mem_iff, List.mem_cons]

theorem insBy_pairwise {le : α → α → Bool}
    (htot : ∀ a b, le a b = true ∨ le b a = true)
    (htrans : ∀ a b c, le a b = true → le b c = true → le a c = true)
    {l : List α} (h : l.Pairwise (fun a b => le a b = true)) (e : α) :
    (insBy le e l).Pairwise (fun a b => le a b = true) := by
  induction l with
  | nil => simp [insBy]
  | cons x xs ih =>
    rw [List.pairwise_cons] at h
    by_cases hx : le e x = true
    · rw [insBy, if_pos hx]
      rw [List.pairwise_cons]
      refine ⟨?_, List.pairwise_cons.mpr h⟩
      intro y hy
      rw [List.mem_cons] at hy
      rcases hy with hy | hy
      · exact hy ▸ hx
      · exact htrans e x y hx (h.1 y hy)
    · rw [insBy, if_neg hx]
      rw [List.pairwise_cons]
      refine ⟨?_, ih h.2⟩
      intro y hy
      rw [mem_insBy] at hy
      rcases hy with hy | hy
      · rw [hy]
        rcases htot e x with he | he
        · exact absurd he hx
        · exact he
      · exact h.1 y hy

theorem sortBy_pairwise {le : α → α → Bool}
    (htot : ∀ a b, le a b = true ∨ le b a = true)
    (htrans : ∀ a b c, le a b = true → le b c = true → le a c = true)
    (l : List α) : (sortBy le l).Pairwise (fun a b => le a b = true) := by
  induction l with
  | nil => simp [sortBy]
  | cons x xs ih =>
    rw [sortBy, List.foldr_cons]
    exact insBy_pairwise htot htrans ih x

theorem objectEntries_perm (m : List (List Char × Nat)) :
    (objectEntries m).Perm m := by
  rw [objectEntries]
  refine List.Perm.trans ?_ (List.filter_append_perm (fun p => isArrayIndexKey p.1) m)
  exact (sortBy_perm _ _).append_right _

theorem sortByCountDesc_perm (m : List (List Char × Nat)) :
    (sortByCountDesc m).Perm m := sortBy_perm _ m

theorem sortByCountDesc_sorted (m : List (List Char × Nat)) :
    (sortByCountDesc m).Pairwise (fun a b => b.2 ≤ a.2) := by
  have h := @sortBy_pairwise (List Char × Nat) (fun a b => decide (b.2 ≤ a.2))
    (fun a b => by
      rcases Nat.le_total b.2 a.2 with h | h
      · exact Or.inl (decide_eq_true h)
      · exact Or.inr (decide_eq_true h))
    (fun a b c hab hbc =>
      decide_eq_true (Nat.le_trans (of_decide_eq_true hbc) (of_decide_eq_true hab))) m
  exact h.imp (fun hd => of_decide_eq_true hd)

/-! ## Position lemmas for the frequency-ordering claim -/

theorem posOf_map_inj [DecidableEq α] [DecidableEq β] {f : α → β}
    (hf : Function.Injective f) (l : List α) (a : α) :
    posOf (l.map f) (f a) = posOf l a := by
  induction l with
  | nil => rfl
  | cons x xs ih =>
    by_cases h : x = a
    · simp [posOf, h]
    · have hfx : ¬ f x = f a := fun hh => h (hf hh)
      simp [posOf, h, hfx, ih]

theorem keys_nodup_count_unique {l : List (List Char × Nat)}
    (hnd : (l.map Prod.fst).Nodup) {a : List Char} {c1 c2 : Nat}
    (h1 : (a, c1) ∈ l) (h2 : (a, c2) ∈ l) : c1 = c2 := by
  have e1 := lookupCount_of_mem hnd h1
  have e2 := lookupCount_of_mem hnd h2
  exact Option.some.inj (e1.symm.trans e2)

theorem posOf_lt_of_count_gt (l : List (List Char × Nat)) :
    ∀ (a b : List Char) (ca cb : Nat),
      (l.map Prod.fst).Nodup → l.Pairwise (fun x y => y.2 ≤ x.2) →
      (a, ca) ∈ l → (b, cb) ∈ l → cb < ca →
      posOf (l.map Prod.fst) a < posOf (l.map Prod.fst) b := by
  induction l with
  | nil =>
    intro a b ca cb _ _ ha _ _
    cases ha
  | cons x t ih =>
    intro a b ca cb hnd0 hpw0 ha hb hlt
    have hnd := hnd0
    rw [List.map_cons, List.nodup_cons] at hnd
    have hpw := hpw0
    rw [List.pairwise_cons] at hpw
    by_cases hxa : x.1 = a
    · have hba : ¬ x.1 = b := by
        intro hxb
        have hab : a = b := hxa.symm.trans hxb
        subst hab
        have : ca = cb := keys_nodup_count_unique hnd0 ha hb
        omega
      have hab : ¬ a = b := fun hh => hba (hxa.trans hh)
      simp [posOf, hxa, hba, hab]
    · by_cases hxb : x.1 = b
      · exfalso
        have hx2 : x.2 = cb := by
          rcases List.mem_cons.mp hb with hh | hh
          · rw [← hh]
          · have hbmem : b ∈ List.map Prod.fst t := List.mem_map.mpr ⟨(b, cb), hh, rfl⟩
            exact absurd (show x.1 ∈ List.map Prod.fst t by rw [hxb]; exact hbmem) hnd.1
        have hat : (a, ca) ∈ t := by
          rcases List.mem_cons.mp ha with hh | hh
          · exact absurd (congrArg Prod.fst hh.symm) hxa
          · exact hh
        have hca := hpw.1 _ hat
        simp only at hca
        omega
      · have hat : (a, ca) ∈ t := by
          rcases List.mem_cons.mp ha with hh | hh
          · exact absurd (congrArg Prod.fst hh.symm) hxa
          · exact hh
        have hbt : (b, cb) ∈ t := by
          rcases List.mem_cons.mp hb with hh | hh
          · exact absurd (congrArg Prod.fst hh.symm) hxb
          · exact hh
        have hrec := ih a b ca cb hnd.2 hpw.2 hat hbt hlt
        simp only [List.map_cons, posOf, if_neg hxa, if_neg hxb]
        omega

/-! ## Properties of the extracted keyword list -/

theorem map_fst_take_jsSlice (l : List (List Char × Nat)) (n : Int) :
    jsSlice0 (l.map Prod.fst) n =
      (l.take (if n < 0 then ((l.length : Int) + n).toNat else n.toNat)).map Prod.fst := by
  rw [jsSlice0, List.length_map, List.map_take]

theorem sorted_perm_buildFreq (s : List Char) :
    (sortByCountDesc (objectEntries (buildFreq (jsWordsL s)))).Perm (buildFreq (jsWordsL s)) :=
  (sortByCountDesc_perm _).trans (objectEntries_perm _)

theorem extractKeywordsL_eq_take (s : List Char) (n : Int) :
    extractKeywordsL s n =
      ((sortByCountDesc (objectEntries (buildFreq (jsWordsL s)))).take
        (if n < 0 then
          (((sortByCountDesc (objectEntries (buildFreq (jsWordsL s)))).length : Int) + n).toNat
        else n.toNat)).map Prod.fst := by
  rw [extractKeywordsL, selectTop, map_fst_take_jsSlice]

theorem extractKeywordsL_nodup (s : List Char) (n : Int) :
    (extractKeywordsL s n).Nodup := by
  rw [extractKeywordsL_eq_take]
  have hnd1 : ((sortByCountDesc (objectEntries (buildFreq (jsWordsL s)))).map Prod.fst).Nodup :=
    (((sorted_perm_buildFreq s).map Prod.fst).nodup_iff).mpr (buildFreq_keys_nodup _)
  rw [List.map_take]
  exact (List.take_sublist _ _).nodup hnd1

theorem extractKeywordsL_mem_props {s : List Char} {n : Int} {a : List Char}
    (ha : a ∈ extractKeywordsL s n) :
    isStopWord a = false ∧ a ∈ jsWordsL s := by
  rw [extractKeywordsL_eq_take] at ha
  obtain ⟨pa, hpal, hpa⟩ := List.mem_map.mp ha
  have hmem : pa ∈ buildFreq (jsWordsL s) :=
    ((sorted_perm_buildFreq s).mem_iff).mp ((List.take_sublist _ _).subset hpal)
  have h := buildFreq_mem _ hmem
  rw [hpa] at h
  exact ⟨h.2.1, h.2.2⟩

theorem extractKeywordsL_length_le {s : List Char} {n : Int} (hn : 0 ≤ n) :
    (extractKeywordsL s n).length ≤ n.toNat := by
  rw [extractKeywordsL, selectTop, jsSlice0, if_neg (by omega : ¬ n < 0)]
  rw [List.length_take]
  exact Nat.min_le_left _ _

theorem extractKeywordsL_order {s : List Char} {n : Int} {a b : List Char}
    (ha : a ∈ extractKeywordsL s n) (hb : b ∈ extractKeywordsL s n)
    (hlt : (jsWordsL s).count b < (jsWordsL s).count a) :
    posOf (extractKeywordsL s n) a < posOf (extractKeywordsL s n) b := by
  have hrw := extractKeywordsL_eq_take s n
  rw [hrw] at ha hb ⊢
  set l1 := sortByCountDesc (objectEntries (buildFreq (jsWordsL s))) with hl1
  set E := (if n < 0 then ((l1.length : Int) + n).toNat else n.toNat) with hE
  have hnd1 : (l1.map Prod.fst).Nodup :=
    (((sorted_perm_buildFreq s).map Prod.fst).nodup_iff).mpr (buildFreq_keys_nodup _)
  have hndL : ((l1.take E).map Prod.fst).Nodup := by
    rw [List.map_take]
    exact (List.take_sublist _ _).nodup hnd1
  have hpwL : (l1.take E).Pairwise (fun x y => y.2 ≤ x.2) :=
    List.Pairwise.sublist (List.take_sublist E l1) (sortByCountDesc_sorted _)
  obtain ⟨pa, hpaL, hpa⟩ := List.mem_map.mp ha
  obtain ⟨pb, hpbL, hpb⟩ := List.mem_map.mp hb
  have hpa2 : pa.2 = (jsWordsL s).count a := by
    have hmem : pa ∈ buildFreq (jsWordsL s) :=
      ((sorted_perm_buildFreq s).mem_iff).mp ((List.take_sublist _ _).subset hpaL)
    have h := (buildFreq_mem _ hmem).1
    rw [hpa] at h
    exact h
  have hpb2 : pb.2 = (jsWordsL s).count b := by
    have hmem : pb ∈ buildFreq (jsWordsL s) :=
      ((sorted_perm_buildFreq s).mem_iff).mp ((List.take_sublist _ _).subset hpbL)
    have h := (buildFreq_mem _ hmem).1
    rw [hpb] at h
    exact h
  have hamem : (a, pa.2) ∈ l1.take E := by
    rw [← hpa]
    exact hpaL
  have hbmem : (b, pb.2) ∈ l1.take E := by
    rw [← hpb]
    exact hpbL
  exact posOf_lt_of_count_gt (l1.take E) a b pa.2 pb.2 hndL hpwL hamem hbmem
    (by rw [hpa2, hpb2]; exact hlt)

/-! ## Highlighter lemmas: matching at word boundaries -/

theorem head_dropWhile_false (p : α → Bool) (l : List α) :
    ∀ c, (l.dropWhile p).head? = some c → p c = false := by
  induction l with
  | nil => intro c hc; cases hc
  | cons x xs ih =>
    intro c hc
    rw [List.dropWhile_cons] at hc
    by_cases hx : p x = true
    · rw [if_pos hx] at hc
      exact ih c hc
    · rw [if_neg hx] at hc
      cases hc
      exact Bool.not_eq_true _ |>.mp hx

theorem all_takeWhile (p : α → Bool) (l : List α) : (l.takeWhile p).all p = true := by
  rw [List.all_eq_true]
  exact fun x hx => List.mem_takeWhile_imp hx

theorem getLast?_all {p : α → Bool} {l : List α} (hne : l ≠ [])
    (hall : l.all p = true) : ∃ x, l.getLast? = some x ∧ p x = true := by
  refine ⟨l.getLast hne, List.getLast?_eq_getLast l hne, ?_⟩
  exact List.all_eq_true.mp hall _ (List.getLast_mem hne)

theorem find?_congr_mem {p q : α → Bool} {l : List α}
    (h : ∀ a ∈ l, p a = q a) : l.find? p = l.find? q := by
  induction l with
  | nil => rfl
  | cons x xs ih =>
    rw [List.find?_cons, List.find?_cons, h x (List.mem_cons_self x xs)]
    by_cases hq : q x = true
    · rw [hq]
    · rw [Bool.not_eq_true] at hq
      rw [hq]
      exact ih (fun a ha => h a (List.mem_cons_of_mem x ha))

theorem take_all_le_takeWhile {p : α → Bool} :
    ∀ (l : List α) (j : Nat), j ≤ l.length → (l.take j).all p = true →
      j ≤ (l.takeWhile p).length := by
  intro l
  induction l with
  | nil =>
    intro j hj _
    simpa using hj
  | cons x xs ih =>
    intro j hj hall
    cases j with
    | zero => exact Nat.zero_le _
    | succ j =>
      rw [List.take_succ_cons, List.all_cons, Bool.and_eq_true] at hall
      rw [List.takeWhile_cons, if_pos hall.1, List.length_cons]
      exact Nat.succ_le_succ (ih j (Nat.le_of_succ_le_succ hj) hall.2)

theorem all_word_of_alnum {l : List Char} (h : l.all isAlnum = true) :
    l.all isWordChar = true := by
  rw [List.all_eq_true] at h ⊢
  intro x hx
  have := h x hx
  rw [isWordChar, this]
  rfl

theorem all_word_of_lowerStr_eq {a k : List Char} (h : lowerStr a = lowerStr k)
    (hk : k.all isAlnum = true) : a.all isWordChar = true := by
  have h1 : (lowerStr a).all isWordChar = (lowerStr k).all isWordChar := by rw [h]
  rw [all_isWordChar_lowerStr, all_isWordChar_lowerStr] at h1
  rw [h1]
  exact all_word_of_alnum hk

theorem lowerStr_length (l : List Char) : (lowerStr l).length = l.length :=
  List.length_map l jsToLower

theorem altMatch_run {prev : Option Char} {s k : List Char}
    (hk : k ≠ []) (hka : k.all isAlnum = true)
    (hs : oWord s.head? = true) :
    altMatch prev s k = decide (lowerStr (s.takeWhile isWordChar) = lowerStr k) := by
  obtain ⟨c, cs, rfl⟩ : ∃ c cs, s = c :: cs := by
    cases s with
    | nil => cases hs
    | cons c cs => exact ⟨c, cs, rfl⟩
  have hcw : isWordChar c = true := hs
  set run := (c :: cs).takeWhile isWordChar with hrundef
  set rest := (c :: cs).dropWhile isWordChar with hrestdef
  have hsr : run ++ rest = c :: cs := List.takeWhile_append_dropWhile isWordChar (c :: cs)
  have hrun_all : run.all isWordChar = true := all_takeWhile _ _
  have hrun_ne : run ≠ [] := by
    rw [hrundef, List.takeWhile_cons, if_pos hcw]
    exact List.cons_ne_nil _ _
  have hk0 : (k.length == 0) = false := by
    rw [beq_eq_false_iff_ne]
    intro hh
    exact hk (List.length_eq_zero.mp hh)
  by_cases hlow : lowerStr run = lowerStr k
  · rw [decide_eq_true hlow]
    have hlen : k.length = run.length := by
      have := congrArg List.length hlow
      rw [lowerStr_length, lowerStr_length] at this
      exact this.symm
    have hklen : k.length ≤ (c :: cs).length := by
      rw [hlen, ← hsr, List.length_append]
      exact Nat.le_add_right _ _
    have htake : (c :: cs).take k.length = run := by
      rw [hlen, ← hsr, List.take_append_of_le_length (Nat.le_refl _), List.take_length]
    have hdrop : (c :: cs).drop k.length = rest := by
      rw [hlen, ← hsr, List.drop_append_of_le_length (Nat.le_refl _), List.drop_length,
        List.nil_append]
    obtain ⟨x, hx1, hx2⟩ := getLast?_all hrun_ne hrun_all
    have hnext : oWord ((c :: cs).drop k.length).head? = false := by
      rw [hdrop]
      cases hrest : rest.head? with
      | none => rfl
      | some d =>
        have := head_dropWhile_false isWordChar (c :: cs) d hrest
        simpa [oWord] using this
    rw [altMatch, hk0]
    simp only [Bool.false_eq_true, if_false]
    rw [htake, hx1]
    rw [decide_eq_true hklen, decide_eq_true hlow]
    simp only [Bool.true_and]
    rw [wordB, hnext]
    simp [oWord, hx2]
  · rw [decide_eq_false hlow]
    by_contra hmatch
    rw [Bool.not_eq_false, altMatch, hk0] at hmatch
    simp only [Bool.false_eq_true, if_false, Bool.and_eq_true, decide_eq_true_eq] at hmatch
    obtain ⟨⟨h1, h2⟩, h3⟩ := hmatch
    have htakeall : ((c :: cs).take k.length).all isWordChar = true :=
      all_word_of_lowerStr_eq h2 hka
    have hle : k.length ≤ run.length :=
      take_all_le_takeWhile (c :: cs) k.length h1 htakeall
    by_cases heq : k.length = run.length
    · have htake : (c :: cs).take k.length = run := by
        rw [heq, ← hsr, List.take_append_of_le_length (Nat.le_refl _), List.take_length]
      rw [htake] at h2
      exact hlow h2
    · have hlt : k.length < run.length := Nat.lt_of_le_of_ne hle heq
      have hdropword : ∃ e, ((c :: cs).drop k.length).head? = some e ∧ isWordChar e = true := by
        have hdr : (c :: cs).drop k.length = run.drop k.length ++ rest := by
          rw [← hsr, List.drop_append_of_le_length (Nat.le_of_lt hlt)]
        have hne : run.drop k.length ≠ [] := by
          intro hh
          have := congrArg List.length hh
          rw [List.length_drop] at this
          simp at this
          omega
        obtain ⟨e, he⟩ : ∃ e, (run.drop k.length).head? = some e := by
          cases hh : (run.drop k.length).head? with
          | none => exact absurd (List.head?_eq_none_iff.mp hh) hne
          | some e => exact ⟨e, rfl⟩
        refine ⟨e, ?_, ?_⟩
        · rw [hdr, List.head?_append, he]
          rfl
        · have hmem : e ∈ run :=
            (List.drop_sublist _ _).subset (List.mem_of_mem_head? (Option.mem_def.mpr he))
          exact List.all_eq_true.mp hrun_all e hmem
      obtain ⟨e, he1, he2⟩ := hdropword
      have htkne : (c :: cs).take k.length ≠ [] := by
        intro hh
        have hlen0 := congrArg List.length hh
        rw [List.length_take] at hlen0
        simp only [List.length_nil] at hlen0
        have hkpos : 0 < k.length := List.length_pos.mpr hk
        have hspos : 0 < (c :: cs).length := by simp
        omega
      obtain ⟨x, hx1, hx2⟩ := getLast?_all htkne htakeall
      rw [hx1, he1, wordB] at h3
      simp [oWord, hx2, he2] at h3

theorem altMatch_sep {prev : Option Char} {s k : List Char}
    (hk : k ≠ []) (hka : k.all isAlnum = true)
    (hs : oWord s.head? = false) :
    altMatch prev s k = false := by
  by_contra hmatch
  rw [Bool.not_eq_false, altMatch] at hmatch
  simp only [Bool.and_eq_true, decide_eq_true_eq] at hmatch
  obtain ⟨⟨h1, h2⟩, _⟩ := hmatch
  obtain ⟨k0, k1, rfl⟩ : ∃ k0 k1, k = k0 :: k1 := by
    cases k with
    | nil => exact absurd rfl hk
    | cons k0 k1 => exact ⟨k0, k1, rfl⟩
  obtain ⟨c, cs, rfl⟩ : ∃ c cs, s = c :: cs := by
    cases s with
    | nil => simp at h1
    | cons c cs => exact ⟨c, cs, rfl⟩
  have hcw : isWordChar c = false := hs
  have hk0w : isWordChar k0 = true := by
    have := List.all_eq_true.mp hka k0 (List.mem_cons_self _ _)
    rw [isWordChar, this]
    rfl
  have hheads := congrArg List.head? h2
  rw [List.length_cons, List.take_succ_cons, lowerStr, lowerStr, List.map_cons,
    List.map_cons, List.head?_cons, List.head?_cons] at hheads
  have hlow : jsToLower c = jsToLower k0 := Option.some.inj hheads
  have hcontr : isWordChar c = isWordChar k0 := by
    rw [← isWordChar_jsToLower c, ← isWordChar_jsToLower k0, hlow]
  rw [hcw, hk0w] at hcontr
  cases hcontr

theorem findAlt_sep {alts : List (List Char)} {prev : Option Char} {s : List Char}
    (halts : ∀ k ∈ alts, k ≠ [] ∧ k.all isAlnum = true)
    (hs : oWord s.head? = false) :
    findAlt alts prev s = none := by
  rw [findAlt, List.find?_eq_none]
  intro k hk
  rw [altMatch_sep (halts k hk).1 (halts k hk).2 hs]
  exact Bool.false_ne_true

theorem findAlt_run {alts : List (List Char)} {prev : Option Char} {s : List Char}
    (halts : ∀ k ∈ alts, k ≠ [] ∧ k.all isAlnum = true)
    (hs : oWord s.head? = true) :
    findAlt alts prev s =
      alts.find? (fun k => decide (lowerStr (s.takeWhile isWordChar) = lowerStr k)) := by
  rw [findAlt]
  exact find?_congr_mem (fun k hk => altMatch_run (halts k hk).1 (halts k hk).2 hs)

/-! ## Equations for the spec-side highlighter -/

theorem specHL_nil (lkws : List (List Char)) : specHL lkws [] = [] := by
  rw [specHL]

theorem specHL_cons_sep {lkws : List (List Char)} {c : Char} {cs : List Char}
    (hc : ¬ isWordChar c = true) :
    specHL lkws (c :: cs) = c :: specHL lkws cs := by
  rw [specHL, if_neg hc]

theorem specHL_cons_word_mem {lkws : List (List Char)} {c : Char} {cs : List Char}
    (hc : isWordChar c = true)
    (hmem : lowerStr (c :: cs.takeWhile isWordChar) ∈ lkws) :
    specHL lkws (c :: cs) =
      '*' :: '*' :: ((c :: cs.takeWhile isWordChar) ++ '*' :: '*' ::
        specHL lkws (cs.dropWhile isWordChar)) := by
  rw [specHL, if_pos hc, if_pos hmem]

theorem specHL_cons_word_not {lkws : List (List Char)} {c : Char} {cs : List Char}
    (hc : isWordChar c = true)
    (hmem : ¬ lowerStr (c :: cs.takeWhile isWordChar) ∈ lkws) :
    specHL lkws (c :: cs) =
      (c :: cs.takeWhile isWordChar) ++ specHL lkws (cs.dropWhile isWordChar) := by
  rw [specHL, if_pos hc, if_neg hmem]

theorem take_len_takeWhile (p : α → Bool) (l : List α) :
    l.take (l.takeWhile p).length = l.takeWhile p := by
  induction l with
  | nil => rfl
  | cons x xs ih =>
    rw [List.takeWhile_cons]
    by_cases h : p x = true
    · rw [if_pos h, List.length_cons, List.take_succ_cons, ih]
    · rw [if_neg h]
      rfl

theorem drop_len_takeWhile (p : α → Bool) (l : List α) :
    l.drop (l.takeWhile p).length = l.dropWhile p := by
  induction l with
  | nil => rfl
  | cons x xs ih =>
    rw [List.takeWhile_cons, List.dropWhile_cons]
    by_cases h : p x = true
    · rw [if_pos h, if_pos h, List.length_cons, List.drop_succ_cons, ih]
    · rw [if_neg h, if_neg h, List.length_nil, List.drop_zero]

theorem hlScanF_run_copy {alts : List (List Char)} {F : Nat}
    (HM : ∀ g, g ≤ F → ∀ (s : List Char) (prev : Option Char),
      s.length < g → (oWord prev = true → oWord s.head? = false) →
      hlScanF alts g prev s = specHL (alts.map lowerStr) s) :
    ∀ (tw : List Char) (rest : List Char) (f1 : Nat) (prev1 : Option Char),
      tw.all isWordChar = true → oWord prev1 = true →
      (rest = [] ∨ oWord rest.head? = false) →
      tw.length + rest.length < f1 → f1 ≤ F →
      hlScanF alts f1 prev1 (tw ++ rest) = tw ++ specHL (alts.map lowerStr) rest := by
  intro tw
  induction tw with
  | nil =>
    intro rest f1 prev1 _ _ hrest hlen hle
    rw [List.nil_append, List.nil_append]
    refine HM f1 hle rest prev1 (by simpa using hlen) ?_
    intro _
    rcases hrest with hh | hh
    · rw [hh]
      rfl
    · exact hh
  | cons w tw ih =>
    intro rest f1 prev1 hall hp hrest hlen hle
    obtain ⟨f2, rfl⟩ : ∃ f2, f1 = f2 + 1 := ⟨f1 - 1, by omega⟩
    rw [List.all_cons, Bool.and_eq_true] at hall
    have hwB : wordB prev1 (some w) = false := by
      rw [wordB, hp]
      simp [oWord, hall.1]
    have hunf : hlScanF alts (f2 + 1) prev1 ((w :: tw) ++ rest) =
        (if wordB prev1 (some w) then
          match findAlt alts prev1 (w :: (tw ++ rest)) with
          | some k =>
            if k.length == 0 then
              '*' :: '*' :: '*' :: '*' :: w :: hlScanF alts f2 (some w) (tw ++ rest)
            else
              '*' :: '*' :: (((w :: (tw ++ rest)).take k.length) ++ '*' :: '*' ::
                hlScanF alts f2 (((w :: (tw ++ rest)).take k.length).getLast?)
                  ((w :: (tw ++ rest)).drop k.length))
          | none => w :: hlScanF alts f2 (some w) (tw ++ rest)
        else w :: hlScanF alts f2 (some w) (tw ++ rest)) := rfl
    rw [hunf, hwB]
    simp only [Bool.false_eq_true, if_false]
    rw [List.cons_append]
    rw [List.length_cons] at hlen
    have hrec := ih rest f2 (some w) hall.2 (by simp [oWord, hall.1]) hrest
      (by omega) (by omega)
    rw [hrec]

theorem hlScanF_eq_specHL {alts : List (List Char)}
    (halts : ∀ k ∈ alts, k ≠ [] ∧ k.all isAlnum = true) :
    ∀ (fuel : Nat) (s : List Char) (prev : Option Char),
      s.length < fuel →
      (oWord prev = true → oWord s.head? = false) →
      hlScanF alts fuel prev s = specHL (alts.map lowerStr) s := by
  intro fuel
  induction fuel using Nat.strong_induction_on with
  | _ fuel ihf =>
    intro s prev hfuel hC
    cases fuel with
    | zero => omega
    | succ f =>
      cases s with
      | nil =>
        rw [specHL_nil]
        have hunf : hlScanF alts (f + 1) prev [] =
            (if wordB prev none && (findAlt alts prev []).isSome then
              ['*', '*', '*', '*'] else []) := rfl
        rw [hunf]
        have hfa : findAlt alts prev [] = none := by
          rw [findAlt, List.find?_eq_none]
          intro k hk
          have hkne := (halts k hk).1
          rw [altMatch]
          simp only [List.length_nil, Bool.and_eq_true, decide_eq_true_eq, not_and]
          intro hcontr
          exact absurd (List.length_eq_zero.mp (Nat.le_zero.mp hcontr.1)) hkne
        rw [hfa]
        simp
      | cons c cs =>
        have hfs : cs.length < f := by
          rw [List.length_cons] at hfuel
          omega
        have hunf : hlScanF alts (f + 1) prev (c :: cs) =
            (if wordB prev (some c) then
              match findAlt alts prev (c :: cs) with
              | some k =>
                if k.length == 0 then
                  '*' :: '*' :: '*' :: '*' :: c :: hlScanF alts f (some c) cs
                else
                  '*' :: '*' :: (((c :: cs).take k.length) ++ '*' :: '*' ::
                    hlScanF alts f (((c :: cs).take k.length).getLast?)
                      ((c :: cs).drop k.length))
              | none => c :: hlScanF alts f (some c) cs
            else c :: hlScanF alts f (some c) cs) := rfl
        rw [hunf]
        by_cases hw : isWordChar c = true
        · -- word character: a match may start here
          have hprev : oWord prev = false := by
            rcases Bool.eq_false_or_eq_true (oWord prev) with hh | hh
            · have := hC hh
              rw [List.head?_cons] at this
              simp [oWord, hw] at this
            · exact hh
          have hwB : wordB prev (some c) = true := by
            rw [wordB, hprev]
            simp [oWord, hw]
          rw [hwB]
          simp only [if_true]
          have hhead : oWord (c :: cs).head? = true := by
            rw [List.head?_cons]
            simpa [oWord] using hw
          rw [findAlt_run halts hhead]
          have hrun : (c :: cs).takeWhile isWordChar = c :: cs.takeWhile isWordChar := by
            rw [List.takeWhile_cons, if_pos hw]
          have hrest : (c :: cs).dropWhile isWordChar = cs.dropWhile isWordChar := by
            rw [List.dropWhile_cons, if_pos hw]
          have hsr : (c :: cs).takeWhile isWordChar ++ (c :: cs).dropWhile isWordChar =
              c :: cs := List.takeWhile_append_dropWhile isWordChar (c :: cs)
          have hrestlen : (cs.dropWhile isWordChar).length ≤ cs.length :=
            (List.dropWhile_sublist isWordChar).length_le
          have hrestC : ∀ x : Char, oWord (cs.dropWhile isWordChar).head? = false := by
            intro _
            cases hh : (cs.dropWhile isWordChar).head? with
            | none => rfl
            | some d =>
              have := head_dropWhile_false isWordChar cs d hh
              simpa [oWord] using this
          cases hfind : alts.find?
              (fun k => decide (lowerStr ((c :: cs).takeWhile isWordChar) = lowerStr k)) with
          | some k =>
            have hkmem : k ∈ alts := List.mem_of_find?_eq_some hfind
            have hklow : lowerStr ((c :: cs).takeWhile isWordChar) = lowerStr k := by
              have := @List.find?_some (List Char)
                (fun k => decide (lowerStr ((c :: cs).takeWhile isWordChar) = lowerStr k))
                k alts hfind
              simpa using this
            have hkne : k ≠ [] := (halts k hkmem).1
            have hk0 : (k.length == 0) = false := by
              rw [beq_eq_false_iff_ne]
              exact fun hh => hkne (List.length_eq_zero.mp hh)
            show (if (k.length == 0) = true then
                '*' :: '*' :: '*' :: '*' :: c :: hlScanF alts f (some c) cs
              else
                '*' :: '*' :: (((c :: cs).take k.length) ++ '*' :: '*' ::
                  hlScanF alts f (((c :: cs).take k.length).getLast?)
                    ((c :: cs).drop k.length))) = specHL (alts.map lowerStr) (c :: cs)
            rw [hk0]
            simp only [Bool.false_eq_true, if_false]
            have hlen : k.length = ((c :: cs).takeWhile isWordChar).length := by
              have := congrArg List.length hklow
              rw [lowerStr_length, lowerStr_length] at this
              exact this.symm
            have htake : (c :: cs).take k.length = (c :: cs).takeWhile isWordChar := by
              rw [hlen, take_len_takeWhile]
            have hdrop : (c :: cs).drop k.length = cs.dropWhile isWordChar := by
              rw [hlen, drop_len_takeWhile, hrest]
            have hrun_ne : (c :: cs).takeWhile isWordChar ≠ [] := by
              rw [hrun]
              exact List.cons_ne_nil _ _
            obtain ⟨x, hx1, hx2⟩ := getLast?_all hrun_ne (all_takeWhile _ _)
            have hrec : hlScanF alts f (some x) (cs.dropWhile isWordChar) =
                specHL (alts.map lowerStr) (cs.dropWhile isWordChar) := by
              refine ihf f (Nat.lt_succ_self f) _ (some x) (by omega) ?_
              intro _
              exact hrestC x
            have hmem : lowerStr (c :: cs.takeWhile isWordChar) ∈ alts.map lowerStr := by
              rw [← hrun]
              exact List.mem_map.mpr ⟨k, hkmem, hklow.symm⟩
            rw [htake, hx1, hdrop, hrec, specHL_cons_word_mem hw hmem, hrun]
          | none =>
            have hnmem : ¬ lowerStr (c :: cs.takeWhile isWordChar) ∈ alts.map lowerStr := by
              rw [← hrun]
              intro hh
              obtain ⟨k2, hk1, hk2⟩ := List.mem_map.mp hh
              have := List.find?_eq_none.mp hfind k2 hk1
              simp only [decide_eq_true_eq] at this
              exact this hk2.symm
            show c :: hlScanF alts f (some c) cs = specHL (alts.map lowerStr) (c :: cs)
            rw [specHL_cons_word_not hw hnmem, List.cons_append]
            have hcopy := hlScanF_run_copy
              (fun g hg s1 p1 hl1 hc1 => ihf g (by omega) s1 p1 hl1 hc1)
              (cs.takeWhile isWordChar) (cs.dropWhile isWordChar) f (some c)
              (all_takeWhile _ _) (by simpa [oWord] using hw) ?_ ?_ (Nat.le_refl f)
            · rw [List.takeWhile_append_dropWhile] at hcopy
              rw [hcopy]
            · cases hh : (cs.dropWhile isWordChar).head? with
              | none => exact Or.inl (List.head?_eq_none_iff.mp hh)
              | some d =>
                refine Or.inr ?_
                have := head_dropWhile_false isWordChar cs d hh
                simpa [oWord] using this
            · have : (cs.takeWhile isWordChar).length + (cs.dropWhile isWordChar).length
                  = cs.length := by
                rw [← List.length_append, List.takeWhile_append_dropWhile]
              omega
        · -- separator character: copy it
          rw [Bool.not_eq_true] at hw
          have hrec : hlScanF alts f (some c) cs = specHL (alts.map lowerStr) cs := by
            refine ihf f (Nat.lt_succ_self f) cs (some c) hfs ?_
            intro hh
            rw [oWord] at hh
            rw [hw] at hh
            cases hh
          have hspec : specHL (alts.map lowerStr) (c :: cs) = c :: specHL (alts.map lowerStr) cs :=
            specHL_cons_sep (by rw [hw]; exact Bool.false_ne_true)
          rw [hspec]
          by_cases hob : oWord prev = true
          · have hwB : wordB prev (some c) = true := by
              rw [wordB, hob]
              simp [oWord, hw]
            rw [hwB]
            simp only [if_true]
            have hhead : oWord (c :: cs).head? = false := by
              rw [List.head?_cons]
              simpa [oWord] using hw
            rw [findAlt_sep halts hhead, hrec]
          · rw [Bool.not_eq_true] at hob
            have hwB : wordB prev (some c) = false := by
              rw [wordB, hob]
              simp [oWord, hw]
            rw [hwB]
            simp only [Bool.false_eq_true, if_false]
            rw [hrec]

/-! ## From the scan to highlight and specHighlight -/

theorem highlight_eq_spec_general (input : String) (kws : List String)
    (hne : kws ≠ []) (hk : ∀ k ∈ kws, k.data ≠ [] ∧ k.data.all isAlnum = true) :
    highlight input kws = specHighlight input kws := by
  rw [highlight, specHighlight]
  have hemp : kws.isEmpty = false := by
    cases kws with
    | nil => exact absurd rfl hne
    | cons a l => rfl
  rw [hemp]
  simp only [Bool.false_eq_true, if_false]
  have halts : ∀ k ∈ kws.map String.data, k ≠ [] ∧ k.all isAlnum = true := by
    intro k hkm
    obtain ⟨k0, hk0, rfl⟩ := List.mem_map.mp hkm
    exact hk k0 hk0
  have hmain := hlScanF_eq_specHL halts (input.data.length + 1) input.data none
    (Nat.lt_succ_self _) (by intro hh; exact absurd hh (by decide))
  rw [hmain, List.map_map]
  rfl

/-! ## The trimmed-input test of handleSubmit -/

theorem all_dropWhile_self (p : α → Bool) (l : List α) :
    (l.dropWhile p).all p = l.all p := by
  conv_rhs => rw [← List.takeWhile_append_dropWhile p l]
  rw [List.all_append, all_takeWhile, Bool.true_and]

theorem jsTrim_isEmpty (s : List Char) :
    (jsTrim s).isEmpty = s.all jsIsWhitespace := by
  rw [Bool.eq_iff_iff, jsTrim, List.isEmpty_iff, List.reverse_eq_nil_iff,
    List.dropWhile_eq_nil_iff, List.all_eq_true]
  constructor
  · intro hh x hx
    rw [← List.takeWhile_append_dropWhile jsIsWhitespace s, List.mem_append] at hx
    rcases hx with hx | hx
    · exact List.mem_takeWhile_imp hx
    · exact hh x (List.mem_reverse.mpr hx)
  · intro hh x hx
    exact hh x ((List.dropWhile_sublist _).subset (List.mem_reverse.mp hx))

/-! ## Claim theorems -/

/-- C1: the claim says highlighting with an empty keyword list is the
identity and that the pipeline with n = 0 returns the text unchanged.
The code contradicts this: an empty keyword array produces the regex
pattern of a word boundary, an empty group and a word boundary, whose
empty alternative matches at every word boundary, so the replacement
inserts two pairs of stars there.  On the text "cat" the code returns
"****cat****" instead of "cat", and the submitted pipeline with n = 0
stores "****cat****".  This theorem evaluates the code at the failing
input. -/
theorem highlight_empty_keywords_bug :
    highlight "cat" [] = "****cat****" ∧
    highlight "cat" [] ≠ "cat" ∧
    extractKeywords "cat" 0 = [] ∧
    handleSubmit "cat" 0 = "****cat****" :=
  ⟨by decide, by decide, by decide, by decide⟩

/-- C2 counterexample: the Selector applied to the frequency map with
entries cat 1 and dog 1 and the count N = -1 returns the list
containing cat, not the empty list the claim demands for every N ≤ 0:
Array.prototype.slice with a negative end index keeps all but the last
entries. -/
theorem selector_nonpositive_ce :
    selectTop [(['c','a','t'], 1), (['d','o','g'], 1)] (-1) = [['c','a','t']] ∧
    selectTop [(['c','a','t'], 1), (['d','o','g'], 1)] (-1) ≠ [] :=
  ⟨by decide, by decide⟩

/-- C2 amended: for N = 0 the Selector returns the empty list; for
N > 0 it returns the first N sorted entries, and all entries when fewer
than N exist; for N < 0 it follows the slice semantics of JavaScript
and returns all sorted entries except the last min(-N, length) ones. -/
theorem selector_slice_spec (freq : List (List Char × Nat)) (n : Int) :
    (n = 0 → selectTop freq n = []) ∧
    (0 < n → selectTop freq n =
      ((sortByCountDesc (objectEntries freq)).map Prod.fst).take n.toNat) ∧
    (0 < n → (((sortByCountDesc (objectEntries freq)).map Prod.fst).length : Int) ≤ n →
      selectTop freq n = (sortByCountDesc (objectEntries freq)).map Prod.fst) ∧
    (n < 0 → selectTop freq n =
      ((sortByCountDesc (objectEntries freq)).map Prod.fst).take
        ((((sortByCountDesc (objectEntries freq)).map Prod.fst).length : Int) + n).toNat) := by
  refine ⟨?_, ?_, ?_, ?_⟩
  · intro h
    subst h
    rw [selectTop, jsSlice0]
    simp
  · intro h
    rw [selectTop, jsSlice0, if_neg (by omega)]
  · intro h hle
    rw [selectTop, jsSlice0, if_neg (by omega)]
    refine List.take_of_length_le ?_
    omega
  · intro h
    rw [selectTop, jsSlice0, if_pos h]

/-- C2 witness: on the concrete frequency map with entries a 2 and b 1
the Selector keeps the top entry for N = 1 and returns nothing for
N = 0. -/
theorem selector_slice_spec_witness :
    selectTop [(['a'], 2), (['b'], 1)] 1 = [['a']] ∧
    selectTop [(['a'], 2), (['b'], 1)] 0 = [] := by
  have h1 := selector_slice_spec [(['a'], 2), (['b'], 1)] 1
  have h0 := selector_slice_spec [(['a'], 2), (['b'], 1)] 0
  refine ⟨?_, h0.1 rfl⟩
  rw [h1.2.1 (by decide)]
  decide

/-- C3 counterexample: for n = -1 the function extractKeywords on
"cat dog" returns one token, exceeding the bound max(n, 0) = 0 claimed
for every integer n: the slice semantics keep all but the last sorted
entry instead of returning nothing. -/
theorem extract_count_bound_ce :
    extractKeywords "cat dog" (-1) = ["cat"] ∧
    max (-1 : Int) 0 < ((extractKeywords "cat dog" (-1)).length : Int) :=
  ⟨by decide, by decide⟩

/-- C3 amended: for every n ≥ 0 the function extractKeywords returns at
most max(n, 0) tokens, and for every integer n the returned tokens are
pairwise distinct, none is a stop word, none is empty, and every one
consists only of lowercase letters and digits. -/
theorem extract_tokens_props (t : String) (n : Int) :
    (0 ≤ n → ((extractKeywords t n).length : Int) ≤ max n 0) ∧
    (extractKeywords t n).Nodup ∧
    (∀ w ∈ extractKeywords t n,
      isStopWord w.data = false ∧ w.data ≠ [] ∧ w.data.all isLowerAlnum = true) := by
  have hinj : Function.Injective (fun w : List Char => (⟨w⟩ : String)) :=
    fun x y hxy => congrArg String.data hxy
  refine ⟨?_, ?_, ?_⟩
  · intro hn
    rw [extractKeywords, List.length_map]
    have := @extractKeywordsL_length_le t.data n hn
    omega
  · rw [extractKeywords]
    exact (extractKeywordsL_nodup t.data n).map hinj
  · intro w hw
    rw [extractKeywords] at hw
    obtain ⟨a, ha1, ha2⟩ := List.mem_map.mp hw
    obtain ⟨hstop, hmem⟩ := extractKeywordsL_mem_props ha1
    obtain ⟨hne, hlow⟩ := jsWordsL_token_props hmem
    subst ha2
    exact ⟨hstop, hne, hlow⟩

/-- C3 witness: on a concrete text and count the bound and the token
properties hold and the output evaluates to cat and dog. -/
theorem extract_tokens_props_witness :
    ((extractKeywords "The cat and the dog" 2).length : Int) ≤ max 2 0 ∧
    extractKeywords "The cat and the dog" 2 = ["cat", "dog"] := by
  have h := extract_tokens_props "The cat and the dog" 2
  exact ⟨h.1 (by decide), by decide⟩

/-- C4: if token A occurs strictly more often in the tokenized input
than token B and both appear in the returned keyword list, then A
precedes B in that list: the stable sort orders entries by strictly
larger count first, and slicing preserves the order. -/
theorem extract_freq_order (t : String) (n : Int) (A B : String)
    (hA : A ∈ extractKeywords t n) (hB : B ∈ extractKeywords t n)
    (hgt : (jsWordsL t.data).count B.data < (jsWordsL t.data).count A.data) :
    posOf (extractKeywords t n) A < posOf (extractKeywords t n) B := by
  rw [extractKeywords] at hA hB ⊢
  obtain ⟨a, ha1, ha2⟩ := List.mem_map.mp hA
  obtain ⟨b, hb1, hb2⟩ := List.mem_map.mp hB
  have hinj : Function.Injective (fun w : List Char => (⟨w⟩ : String)) :=
    fun x y hxy => congrArg String.data hxy
  subst ha2
  subst hb2
  rw [posOf_map_inj hinj, posOf_map_inj hinj]
  exact extractKeywordsL_order ha1 hb1 hgt

/-- C4 witness: in "cat cat dog" the token cat occurs twice and dog
once; both are selected and cat precedes dog. -/
theorem extract_freq_order_witness :
    posOf (extractKeywords "cat cat dog" 5) "cat" <
      posOf (extractKeywords "cat cat dog" 5) "dog" ∧
    extractKeywords "cat cat dog" 5 = ["cat", "dog"] :=
  ⟨extract_freq_order "cat cat dog" 5 "cat" "dog" (by decide) (by decide) (by decide),
   by decide⟩

/-- C5: the Tokenizer and Counter lowercase the whole input, split it
on maximal runs of characters that are not ASCII letters or digits
(proved by equality with the run-collecting tokenizer written from the
words of the spec), discard empty tokens, and count each non-stop-word
token with its number of occurrences; empty input yields the empty
token list and the empty frequency map. -/
theorem tokenizer_counter_spec (s : String) (w : List Char) :
    jsWordsL "".data = [] ∧
    buildFreq (jsWordsL "".data) = [] ∧
    jsWordsL s.data = specTokens (lowerStr s.data) ∧
    (∀ t ∈ jsWordsL s.data, t ≠ [] ∧ t.all isLowerAlnum = true) ∧
    lookupCount (buildFreq (jsWordsL s.data)) w =
      (if isStopWord w = false ∧ w ∈ jsWordsL s.data
        then some ((jsWordsL s.data).count w) else none) := by
  refine ⟨by decide, by decide, jsWordsL_eq_specTokens s.data, ?_,
    lookupCount_buildFreq _ w⟩
  intro t ht
  exact jsWordsL_token_props ht

/-- C5 witness: on the text "The cat" the tokenizer yields the lowered
tokens and the counter maps cat to one occurrence while keeping the
stop word the out of scope of the keyword count at lookup of cat. -/
theorem tokenizer_counter_spec_witness :
    jsWordsL "The cat".data = ["the".data, "cat".data] ∧
    lookupCount (buildFreq (jsWordsL "The cat".data)) "cat".data = some 1 ∧
    ("cat".data ≠ [] ∧ "cat".data.all isLowerAlnum = true) := by
  have h := tokenizer_counter_spec "The cat" "cat".data
  refine ⟨by decide, ?_, h.2.2.2.1 "cat".data (by decide)⟩
  rw [h.2.2.2.2]
  decide

/-- C6: keyword matching is whole-word: on the text
"catalog cats cat" with the keyword cat, the occurrences of cat inside
catalog and inside cats are not wrapped; only the standalone word cat
is wrapped in stars.  The tokenizer indeed counts catalog, cats and cat
as three separate tokens. -/
theorem whole_word_matching_concrete :
    highlight "catalog cats cat" ["cat"] = "catalog cats **cat**" ∧
    extractKeywords "catalog cats cat" 3 = ["catalog", "cats", "cat"] :=
  ⟨by decide, by decide⟩

/-- C7 counterexample: the claim quantifies over every non-empty
keyword list, but for the list of keywords "a b" and "b" on the text
"a b" the whole-word occurrence of the keyword b at position 2 is not
wrapped: the leftmost match of the alternation consumes the whole text,
and the output contains no wrapped b segment. -/
theorem highlight_every_occurrence_ce :
    (["a b", "b"] : List String) ≠ [] ∧
    hasWholeWordOcc "a b".data "b".data = true ∧
    highlight "a b" ["a b", "b"] = "**a b**" ∧
    containsSeg "**b**".data (highlight "a b" ["a b", "b"]).data = false :=
  ⟨by decide, by decide, by decide, by decide⟩

/-- C7 amended: for every text and every non-empty keyword list whose
keywords are non-empty strings of ASCII letters and digits, that is,
keywords from the tokenizer alphabet as produced by the Selector, the
function highlight wraps exactly the whole-word, case-insensitive
occurrences of the keywords in stars: it equals the spec-side
highlighter that walks the maximal word-character runs of the text,
wraps each run equal to a keyword under case folding with its original
casing preserved, and copies everything else unchanged. -/
theorem highlight_wraps_whole_words (input : String) (kws : List String)
    (hne : kws ≠ []) (hk : ∀ k ∈ kws, k.data ≠ [] ∧ k.data.all isAlnum = true) :
    highlight input kws = specHighlight input kws :=
  highlight_eq_spec_general input kws hne hk

/-- C7 witness: on the text "The Cat sat" with keywords cat and sat the
regex highlighter agrees with the spec-side highlighter and produces
the output with the original casing of Cat preserved. -/
theorem highlight_wraps_whole_words_witness :
    highlight "The Cat sat" ["cat", "sat"] = specHighlight "The Cat sat" ["cat", "sat"] ∧
    highlight "The Cat sat" ["cat", "sat"] = "The **Cat** **sat**" :=
  ⟨highlight_wraps_whole_words "The Cat sat" ["cat", "sat"] (by decide) (by decide),
   by decide⟩

/-- C8: on submission, if the input text consists of whitespace only
(equivalently, its trim is empty), the stored result is the empty
string and the pipeline is not invoked; otherwise the result is the
pipeline output highlight(text, extractKeywords(text, count)). -/
theorem handleSubmit_spec (text : String) (n : Int) :
    handleSubmit text n =
      (if text.data.all jsIsWhitespace then ""
        else highlight text (extractKeywords text n)) := by
  rw [handleSubmit, jsTrim_isEmpty]

/-- C9: the tokenizer treats the underscore as a separator while the
word boundary of the highlighting regex treats it as a word character:
in "cat_dog cat" the tokenizer counts two occurrences of cat, the
selector picks cat, and the highlighter wraps only the standalone cat,
leaving the occurrence inside cat_dog unwrapped. -/
theorem underscore_tokenizer_highlighter_mismatch :
    isWordChar '_' = true ∧
    isAlnum '_' = false ∧
    (jsWordsL "cat_dog cat".data).count "cat".data = 2 ∧
    extractKeywords "cat_dog cat" 1 = ["cat"] ∧
    highlight "cat_dog cat" ["cat"] = "cat_dog **cat**" ∧
    handleSubmit "cat_dog cat" 1 = "cat_dog **cat**" :=
  ⟨by decide, by decide, by decide, by decide, by decide, by decide⟩

/-- C10: extractKeywords and highlight are deterministic functions of
their arguments: the embedding is a pure function because every step of
the source is deterministic, including the enumeration order of the
frequency object and the stable sort that fixes the order of
equally-frequent tokens. -/
theorem pipeline_deterministic (t1 t2 : String) (n1 n2 : Int)
    (kws1 kws2 : List String)
    (ht : t1 = t2) (hn : n1 = n2) (hkw : kws1 = kws2) :
    extractKeywords t1 n1 = extractKeywords t2 n2 ∧
    highlight t1 kws1 = highlight t2 kws2 := by
  subst ht
  subst hn
  subst hkw
  exact ⟨rfl, rfl⟩

/-- C10 witness: two invocations on the same arguments agree, and the
order of the equally-frequent tokens cat and dog is the fixed
first-insertion order. -/
theorem pipeline_deterministic_witness :
    (extractKeywords "cat dog cat" 2 = extractKeywords "cat dog cat" 2 ∧
      highlight "cat dog cat" ["cat"] = highlight "cat dog cat" ["cat"]) ∧
    extractKeywords "cat dog cat" 2 = ["cat", "dog"] :=
  ⟨pipeline_deterministic "cat dog cat" "cat dog cat" 2 2 ["cat"] ["cat"] rfl rfl rfl,
   by decide⟩
